import Mathlib

/-!
Shallow embedding of a small SAT system consisting of three solvers over
DIMACS CNF input:

* `dpll.py` — a CNF model (`Clause`, `SatInstance`) with a DIMACS parser,
  `is_satisfied`, `find_unit_clause`, `simplify`, and the recursive DPLL
  search `solve_dpll`;
* `dp.py` — the same CNF model plus `convert_to_clause_list` and the
  Davis–Putnam variable-elimination procedure `dp` over flat clauses
  (frozensets of signed integers);
* `resolution.py` — a flat-clause DIMACS parser `dimacs`, a single-pair
  `resolve`, and the saturation loop `resolution`.

Encoding choices (all stated where they matter):
* DIMACS symbols `x<i>` are identified with their 1-based index `i : Nat`
  (the map `i ↦ "x<i>"` is a bijection and every operation of the source
  factors through it; sorting by the numeric suffix is sorting on `Nat`).
* Python dicts (`Clause.symbols`, assignments) are insertion-ordered
  association lists `List (Nat × Int)`; `alookup` is dict access and
  `ainsert` is dict assignment (update in place, keeping the key's
  position, or append).
* Python frozensets of signed integers are `Finset Int`.
* The iteration order of a Python `set`/`frozenset` is unspecified; where
  the source iterates one (choice of the eliminated variable in `dp`,
  choice of the complementary literal in `resolve`, the order of `known`
  in `resolution`) this embedding fixes a concrete deterministic order
  (minimum element, ascending sorted order, insertion order) and notes it
  at the definition.
* `dp` and `resolution` are written with explicit fuel (`dpFuel`,
  `resolutionFuel`): `none` means the computation did not finish within
  the given number of recursive steps / saturation passes.  (`dp` really
  is partial: see the theorems about claim C3.)
* `solve_dpll` is total; it is defined through a structurally recursive
  worker `solve_dpllGo` driven by the explicit bound `dpllMeasure`, which
  strictly decreases along every recursive call the Python code makes.
  Besides the Python results (`None` ↦ `.fail`, an assignment dict ↦
  `.found`), the outcome type has a `.crash` constructor modelling the
  one uncaught exception the code can raise (recursing on the `None`
  returned by `simplify` in the branching step, which makes the next call
  fail with `AttributeError`), and a `.fuelOut` artifact of the encoding.
  The second component of the result models the final state of the
  assignment dict the CALLER passed in, since `solve_dpll` mutates it in
  place during unit propagation.
-/

/-- A clause: the Python dict `Clause.symbols` mapping symbol → sign,
as an insertion-ordered association list. -/
abbrev Clause := List (Nat × Int)

/-- A (partial) assignment: a Python dict mapping symbol → sign. -/
abbrev Assignment := List (Nat × Int)

/-- First-match lookup: models Python dict access `d[k]` / `k in d`. -/
def alookup : List (Nat × Int) → Nat → Option Int
  | [], _ => none
  | (k', v) :: rest, k => if k' = k then some v else alookup rest k

/-- Python dict assignment `d[k] = v`: update the value in place if the key
is present (keeping its position), otherwise append the new pair. -/
def ainsert : List (Nat × Int) → Nat → Int → List (Nat × Int)
  | [], k, v => [(k, v)]
  | (k', v') :: rest, k, v =>
    if k' = k then (k, v) :: rest else (k', v') :: ainsert rest k v

/-- The CNF model `SatInstance` of dpll.py / dp.py: a list of symbols and a
list of clauses. -/
structure SatInstance where
  symbols : List Nat
  clauses : List Clause
deriving DecidableEq

/-- Decidable equality for sums that the kernel can evaluate even when the
component equality proof is not definitional (the derived instance
transports the decision across the proof and gets stuck). -/
instance (priority := 1100) {α β : Type} [DecidableEq α] [DecidableEq β] :
    DecidableEq (α ⊕ β) := fun x y =>
  match x, y with
  | .inl a, .inl b => decidable_of_iff (a = b) (by simp)
  | .inl _, .inr _ => .isFalse fun hc => Sum.noConfusion hc
  | .inr _, .inl _ => .isFalse fun hc => Sum.noConfusion hc
  | .inr a, .inr b => decidable_of_iff (a = b) (by simp)

/-- Decidable equality for `Except` results. -/
instance {ε α : Type} [DecidableEq ε] [DecidableEq α] : DecidableEq (Except ε α) := fun x y =>
  match x, y with
  | .error e, .error f =>
    if h : e = f then .isTrue (by rw [h]) else .isFalse fun hc => h (Except.error.inj hc)
  | .error _, .ok _ => .isFalse fun hc => Except.noConfusion hc
  | .ok _, .error _ => .isFalse fun hc => Except.noConfusion hc
  | .ok a, .ok b =>
    if h : a = b then .isTrue (by rw [h]) else .isFalse fun hc => h (Except.ok.inj hc)

/-- The ascending list of elements of a finite set.  (Extensionally equal
to `Finset.sort (· ≤ ·)`, but built on insertion sort so that the kernel
can evaluate it on concrete inputs.) -/
def sortedListOf {α : Type} [LinearOrder α] (s : Finset α) : List α :=
  Quotient.liftOn s.val (List.insertionSort (· ≤ ·)) fun l₁ l₂ h =>
    List.eq_of_perm_of_sorted
      ((List.perm_insertionSort _ l₁).trans (h.trans (List.perm_insertionSort _ l₂).symm))
      (List.sorted_insertionSort _ l₁) (List.sorted_insertionSort _ l₂)

/-- The keys (symbols) of a clause. -/
def keyList (c : Clause) : List Nat := c.map Prod.fst

/-- The set of symbols occurring in at least one clause of a list. -/
def occF (cs : List Clause) : Finset Nat := (cs.flatMap keyList).toFinset

/-- `sorted(list(set().union(*(c.symbols for c in cs))), key=...)`: the
occurring symbols, sorted ascending (sorting `x<i>` by the numeric suffix
is sorting the indices). -/
def sortedOccList (cs : List Clause) : List Nat := sortedListOf (occF cs)

/-- `SatInstance.is_satisfied`: every clause has at least one literal whose
assigned sign matches its recorded sign. -/
def SatInstance.is_satisfied (inst : SatInstance) (a : Assignment) : Bool :=
  inst.clauses.all fun c => c.any fun p => alookup a p.1 == some p.2

/-- `SatInstance.find_unit_clause`: the first clause with exactly one
symbol, returned as its (symbol, sign) pair (the Python code returns the
one-entry dict `{symbol: sign}`). -/
def SatInstance.find_unit_clause (inst : SatInstance) : Option (Nat × Int) :=
  match inst.clauses.find? (fun c => c.length == 1) with
  | some ((s, v) :: _) => some (s, v)
  | _ => none

/-- The per-clause scan inside `SatInstance.simplify`: `none` means the
clause contains a literal satisfied by the assignment (dropped with
`break`); `some c'` is the clause with every symbol present in the
assignment removed. -/
def scanClause (δ : Assignment) : Clause → Option Clause
  | [] => some []
  | (s, σ) :: rest =>
    match alookup δ s with
    | some v => if v = σ then none else scanClause δ rest
    | none => (scanClause δ rest).map fun c' => (s, σ) :: c'

/-- The clause loop of `SatInstance.simplify`: drop satisfied clauses,
reduce the rest, and return `None` as soon as an unsatisfied clause reduces
to zero symbols. -/
def simplifyClauses (δ : Assignment) : List Clause → Option (List Clause)
  | [] => some []
  | c :: cs =>
    match scanClause δ c with
    | none => simplifyClauses δ cs
    | some [] => none
    | some c' => (simplifyClauses δ cs).map fun cs' => c' :: cs'

/-- `SatInstance.simplify`: the surviving reduced clauses packaged as a new
instance whose symbol list is recomputed from the surviving clauses. -/
def SatInstance.simplify (inst : SatInstance) (δ : Assignment) : Option SatInstance :=
  (simplifyClauses δ inst.clauses).map fun cs => ⟨sortedOccList cs, cs⟩

/-- The keys of an assignment, as a finite set. -/
def keysFin (a : Assignment) : Finset Nat := (a.map Prod.fst).toFinset

/-- Total number of literal entries over a clause list. -/
def sumLen (cs : List Clause) : Nat := (cs.map List.length).sum

/-- Explicit termination bound for `solve_dpll`: the number of relevant
still-unassigned symbols plus the total number of literal entries.  Every
recursive call of the Python code strictly decreases it. -/
def dpllMeasure (inst : SatInstance) (a : Assignment) : Nat :=
  ((occF inst.clauses ∪ inst.symbols.toFinset) \ keysFin a).card + sumLen inst.clauses

/-- Outcome of a `solve_dpll` call.  `.fail` is the Python `None` (failed
branch / UNSAT); `.found a` is a returned assignment dict; `.crash` models
the uncaught `AttributeError` raised when the code recurses on the `None`
returned by `simplify` in the branching step; `.fuelOut` is an artifact of
the fuel encoding and is unreachable when the fuel exceeds `dpllMeasure`. -/
inductive DpllOut
  | fuelOut
  | crash
  | fail
  | found (a : Assignment)
deriving DecidableEq

/-- `symbol in assignment and assignment[symbol] != sign`. -/
def conflictsWith (a : Assignment) (t : Nat) (σ : Int) : Bool :=
  match alookup a t with
  | some v => v != σ
  | none => false

/-- Fuel-indexed worker for `solve_dpll` (dpll.py lines 105-138).  The
while-loop of unit propagation appears as the tail call in the
`find_unit_clause = some _` case; branching tries sign `+1` then `-1`,
each on a fresh copy of the assignment.  The second component of the
result is the final state of the assignment dict passed by the caller
(the code mutates it in place during unit propagation; the branch
recursions receive fresh copies, so they never touch it). -/
def solve_dpllGo : Nat → SatInstance → Assignment → DpllOut × Assignment
  | 0, _, a => (.fuelOut, a)
  | fuel+1, inst, a =>
    match inst.find_unit_clause with
    | some (t, σ) =>
      if conflictsWith a t σ then (.fail, a)
      else
        match inst.simplify [(t, σ)] with
        | none => (.fail, ainsert a t σ)
        | some inst1 =>
          if inst1.clauses = [] then (.found (ainsert a t σ), ainsert a t σ)
          else solve_dpllGo fuel inst1 (ainsert a t σ)
    | none =>
      if inst.clauses = [] then (.found a, a)
      else
        match inst.symbols.find? (fun s => (alookup a s).isNone) with
        | none => (.found a, a)
        | some s =>
          match inst.simplify [(s, 1)] with
          | none => (.crash, a)
          | some instT =>
            match (solve_dpllGo fuel instT (ainsert a s 1)).1 with
            | .crash => (.crash, a)
            | .fuelOut => (.fuelOut, a)
            | .found r =>
              if r = [] then
                match inst.simplify [(s, -1)] with
                | none => (.crash, a)
                | some instF => ((solve_dpllGo fuel instF (ainsert a s (-1))).1, a)
              else (.found r, a)
            | .fail =>
              match inst.simplify [(s, -1)] with
              | none => (.crash, a)
              | some instF => ((solve_dpllGo fuel instF (ainsert a s (-1))).1, a)

/-- `solve_dpll(instance, assignment)`: run the worker with enough fuel
(`dpllMeasure` strictly decreases along every recursive call, so
`.fuelOut` is never reached). -/
def solve_dpll (inst : SatInstance) (a : Assignment) : DpllOut × Assignment :=
  solve_dpllGo (dpllMeasure inst a + 1) inst a

/-! ### dp.py: flat clauses and Davis–Putnam elimination -/

/-- `convert_to_clause_list`: each clause becomes a frozenset of signed
integers via the enumeration of the instance's symbol list
(`symbol_to_int = {s: i+1 for i, s in enumerate(instance.symbols)}`). -/
def convert_to_clause_list (inst : SatInstance) : List (Finset Int) :=
  inst.clauses.map fun c =>
    (c.map fun p => ((inst.symbols.indexOf p.1 : Int) + 1) * p.2).toFinset

/-- One step of `dp` (dp.py lines 90-120): base cases, choice of a variable
still present, partition, all pairwise resolvents on that variable, and the
clause list passed to the recursive call.  `next(iter(variables))` iterates
a Python set in unspecified order; the embedding takes the minimum (CPython
iterates small non-negative ints in increasing order). -/
def dpStep (clauses : List (Finset Int)) : Bool ⊕ List (Finset Int) :=
  if (∅ : Finset Int) ∈ clauses then .inl false
  else if clauses = [] then .inl true
  else
    let varSet : Finset Nat := clauses.foldr (fun c acc => c.image Int.natAbs ∪ acc) ∅
    if h : varSet.Nonempty then
      let var := varSet.min' h
      let pos := clauses.filter fun c => decide ((var : Int) ∈ c)
      let neg := clauses.filter fun c => decide ((-(var : Int)) ∈ c)
      let rest := clauses.filter fun c => decide ((var : Int) ∉ c ∧ (-(var : Int)) ∉ c)
      let resolvents := pos.flatMap fun c1 => neg.map fun c2 =>
        (c1.erase (var : Int)) ∪ (c2.erase (-(var : Int)))
      if (∅ : Finset Int) ∈ resolvents then .inl false
      else .inr (rest ++ resolvents)
    else .inl true

/-- `dp` with fuel: `none` means the recursion did not finish within `n`
steps.  (It genuinely need not finish: see the theorems for claim C3.) -/
def dpFuel : Nat → List (Finset Int) → Option Bool
  | 0, _ => none
  | n+1, cs =>
    match dpStep cs with
    | .inl b => some b
    | .inr cs' => dpFuel n cs'

/-! ### resolution.py -/

/-- Verdict strings returned by `resolution`. -/
inductive Verdict
  | Satisfiable
  | Unsatisfiable
deriving DecidableEq

/-- `resolve(c1, c2)`: find a literal of `c1` whose negation is in `c2` and
resolve on it.  `for lit in c1` iterates a frozenset in unspecified order;
the embedding scans `c1` in ascending order. -/
def resolve (c1 c2 : Finset Int) : Option (Finset Int) :=
  match (sortedListOf c1).find? (fun l => decide (-l ∈ c2)) with
  | some l => some ((c1.erase l) ∪ (c2.erase (-l)))
  | none => none

/-- All unordered pairs `(known_list[i], known_list[j])` with `i < j`, in
the order the double loop of `resolution` visits them. -/
def allPairs : List (Finset Int) → List (Finset Int × Finset Int)
  | [] => []
  | c :: rest => rest.map (fun d => (c, d)) ++ allPairs rest

/-- One full pass of the double loop of `resolution`: `none` means an empty
resolvent was found (return "Unsatisfiable"); `some news` is the list of
newly derived, previously unseen resolvents (the Python `new_clauses` set,
kept in discovery order). -/
def scanPairs (known : List (Finset Int)) :
    List (Finset Int × Finset Int) → List (Finset Int) → Option (List (Finset Int))
  | [], acc => some acc
  | (c1, c2) :: ps, acc =>
    match resolve c1 c2 with
    | none => scanPairs known ps acc
    | some r =>
      if r = ∅ then none
      else if r ∈ known ∨ r ∈ acc then scanPairs known ps acc
      else scanPairs known ps (acc ++ [r])

/-- The saturation loop of `resolution` with fuel counting passes; `none`
means the fixpoint was not reached within `n` passes.  `known` is a Python
set; the embedding keeps it as a duplicate-free list in insertion order. -/
def resolutionFuel : Nat → List (Finset Int) → Option Verdict
  | 0, _ => none
  | n+1, known =>
    match scanPairs known (allPairs known) [] with
    | none => some .Unsatisfiable
    | some [] => some .Satisfiable
    | some news => resolutionFuel n (known ++ news)

/-- `resolution(clauses)`: deduplicate (`known = set(clauses)`) and
saturate. -/
def resolution (fuel : Nat) (clauses : List (Finset Int)) : Option Verdict :=
  resolutionFuel fuel clauses.dedup

/-! ### DIMACS parsing -/

/-- An input line, pre-classified the way all three parsers classify lines:
comments (`c...`), blank lines, well-formed preambles `p cnf <nv> <ncl>`,
malformed lines starting with `p cnf` (wrong token count), and clause
lines given as their integer tokens.  (Lines starting with `p` but not
`p cnf`, and non-integer tokens, are outside this abstraction; no claim
depends on them.)  The string-level filter `l != '0'` of the sources is
rendered as dropping integer tokens equal to 0. -/
inductive DLine
  | comment
  | blank
  | preamble (nvars ncls : Nat)
  | badPreamble
  | clauseLine (tokens : List Int)

/-- Parse errors of the SatInstance parsers: `ValueError("Invalid DIMACS
preamble")` and `ValueError(f"Literal {l} refers to an undefined
variable")` (the error carries the offending literal). -/
inductive PErr
  | badPreamble
  | badLiteral (l : Int)
deriving DecidableEq

/-- `Clause.from_dimacs(literals, variable_map)` of dpll.py (identical to
`Clause.dimacs` of dp.py): build the symbol → sign dict, overwriting on
duplicate symbols, and fail on the first literal whose variable index is
not in the map.  After the preamble(s), `variable_map` is `{1..nvars}`,
so it is represented by `nvars` alone. -/
def fromDimacsGo (nvars : Nat) : List Int → Clause → Except Int Clause
  | [], acc => .ok acc
  | l :: rest, acc =>
    let sign : Int := if l > 0 then 1 else -1
    let idx := l.natAbs
    if 1 ≤ idx ∧ idx ≤ nvars then fromDimacsGo nvars rest (ainsert acc idx sign)
    else .error l

/-- `Clause.from_dimacs` starting from the empty dict. -/
def from_dimacs (literals : List Int) (nvars : Nat) : Except Int Clause :=
  fromDimacsGo nvars literals []

/-- The line loop of `SatInstance.from_dimacs_file` of dpll.py (identical
to `SatInstance.dimacs_file` of dp.py).  `nv` is the variable map built by
the preamble(s) seen so far (`{1..nv}`, so a later preamble extends it to
the max); clause lines drop their `0` tokens and lines with no remaining
literals are skipped. -/
def fdfGo : List DLine → Nat → List Clause → Except PErr SatInstance
  | [], _, cls => .ok ⟨sortedOccList cls, cls⟩
  | line :: rest, nv, cls =>
    match line with
    | .comment => fdfGo rest nv cls
    | .blank => fdfGo rest nv cls
    | .preamble v _ => fdfGo rest (max nv v) cls
    | .badPreamble => .error .badPreamble
    | .clauseLine toks =>
      let lits := toks.filter (· ≠ 0)
      if lits = [] then fdfGo rest nv cls
      else
        match from_dimacs lits nv with
        | .error l => .error (.badLiteral l)
        | .ok c => fdfGo rest nv (cls ++ [c])

/-- `SatInstance.from_dimacs_file` on a list of (pre-classified) lines. -/
def from_dimacs_file (lines : List DLine) : Except PErr SatInstance :=
  fdfGo lines 0 []

/-- The line loop of `dimacs` of resolution.py, accumulating clauses. -/
def dimacsGo : List DLine → List (Finset Int) → List (Finset Int)
  | [], acc => acc
  | line :: rest, acc =>
    match line with
    | .clauseLine toks =>
      let lits := toks.filter (· ≠ 0)
      if lits = [] then dimacsGo rest acc else dimacsGo rest (acc ++ [lits.toFinset])
    | _ => dimacsGo rest acc

/-- `dimacs(file)` of resolution.py: skip comments, blanks and `p` lines,
drop `0` tokens, skip clause lines with no remaining literals, and collect
each clause as a frozenset of its literals (no range check at all; the
preamble is ignored). -/
def dimacs (lines : List DLine) : List (Finset Int) :=
  dimacsGo lines []

/-- `Clause.format` of dp.py / `Clause.__str__` of dpll.py, composed with
the evident decoding of a signed-symbol token back to a DIMACS literal
(`"-x3" ↦ -3`, `"x3" ↦ 3`): the clause's entries in dict order as signed
integers. -/
def Clause.format (c : Clause) : List Int :=
  c.map fun p => if p.2 = -1 then -(p.1 : Int) else (p.1 : Int)

/-- Statement-side predicate for claim C7: the clause contains a literal
whose symbol and sign match the assignment. -/
def clauseSatisfiedBy (δ : Assignment) (c : Clause) : Bool :=
  c.any fun p => alookup δ p.1 == some p.2

/-- Statement-side operation for claim C7: remove from a clause every
symbol present in the assignment. -/
def clauseReduce (δ : Assignment) (c : Clause) : Clause :=
  c.filter fun p => (alookup δ p.1).isNone

/-- `r` preserves every (symbol, sign) entry of `a` (dict extension). -/
def dictExtends (r a : Assignment) : Prop :=
  ∀ k v, alookup a k = some v → alookup r k = some v

/-! ## Lemmas about the sorted list of a finite set -/

/-- `sortedListOf` is sorted. -/
theorem sortedListOf_sorted {α : Type} [LinearOrder α] (s : Finset α) :
    List.Sorted (· ≤ ·) (sortedListOf s) := by
  rcases s with ⟨m, nd⟩
  induction m using Quotient.inductionOn with
  | h l => exact List.sorted_insertionSort _ l

/-- `sortedListOf` holds exactly the elements of the set. -/
theorem sortedListOf_coe {α : Type} [LinearOrder α] (s : Finset α) :
    (↑(sortedListOf s) : Multiset α) = s.val := by
  rcases s with ⟨m, nd⟩
  induction m using Quotient.inductionOn with
  | h l => exact Multiset.coe_eq_coe.mpr (List.perm_insertionSort _ l)

/-- `sortedListOf` agrees with Mathlib's `Finset.sort`. -/
theorem sortedListOf_eq_sort {α : Type} [LinearOrder α] (s : Finset α) :
    sortedListOf s = s.sort (· ≤ ·) := by
  refine List.eq_of_perm_of_sorted ?_ (sortedListOf_sorted s) (Finset.sort_sorted _ _)
  rw [← Multiset.coe_eq_coe, sortedListOf_coe, Finset.sort_eq]

/-- Membership in `sortedListOf`. -/
theorem mem_sortedListOf {α : Type} [LinearOrder α] (s : Finset α) (x : α) :
    x ∈ sortedListOf s ↔ x ∈ s := by
  rw [sortedListOf_eq_sort]; exact Finset.mem_sort _

/-- `sortedListOf` turned back into a finite set. -/
theorem sortedListOf_toFinset {α : Type} [LinearOrder α] (s : Finset α) :
    (sortedListOf s).toFinset = s := by
  rw [sortedListOf_eq_sort]; exact Finset.sort_toFinset _ _

/-! ## Lemmas about Python dicts (`alookup` / `ainsert`) -/

theorem alookup_ainsert_self (a : List (Nat × Int)) (k : Nat) (v : Int) :
    alookup (ainsert a k v) k = some v := by
  induction a with
  | nil => simp [ainsert, alookup]
  | cons p rest ih =>
    obtain ⟨k', v'⟩ := p
    by_cases h : k' = k <;> simp [ainsert, alookup, h, ih]

theorem alookup_ainsert_ne (a : List (Nat × Int)) (k k' : Nat) (v : Int) (h : k' ≠ k) :
    alookup (ainsert a k v) k' = alookup a k' := by
  have hk : k ≠ k' := Ne.symm h
  induction a with
  | nil => simp [ainsert, alookup, hk]
  | cons p rest ih =>
    obtain ⟨k₀, v₀⟩ := p
    by_cases h0 : k₀ = k
    · subst h0
      simp [ainsert, alookup, hk]
    · by_cases h1 : k₀ = k' <;> simp [ainsert, alookup, h0, h1, h, ih]

theorem ainsert_of_alookup_none (a : List (Nat × Int)) (k : Nat) (v : Int)
    (h : alookup a k = none) : ainsert a k v = a ++ [(k, v)] := by
  induction a with
  | nil => simp [ainsert]
  | cons p rest ih =>
    obtain ⟨k', v'⟩ := p
    by_cases h0 : k' = k
    · simp [alookup, h0] at h
    · simp [alookup, h0] at h
      simp [ainsert, h0, ih h]

theorem ainsert_of_alookup_some (a : List (Nat × Int)) (k : Nat) (v : Int)
    (h : alookup a k = some v) : ainsert a k v = a := by
  induction a with
  | nil => simp [alookup] at h
  | cons p rest ih =>
    obtain ⟨k', v'⟩ := p
    by_cases h0 : k' = k
    · simp [alookup, h0] at h
      simp [ainsert, h0, h]
    · simp [alookup, h0] at h
      simp [ainsert, h0, ih h]

theorem keysFin_ainsert (a : List (Nat × Int)) (k : Nat) (v : Int) :
    keysFin (ainsert a k v) = insert k (keysFin a) := by
  induction a with
  | nil => simp [ainsert, keysFin]
  | cons p rest ih =>
    obtain ⟨k', v'⟩ := p
    by_cases h0 : k' = k
    · subst h0
      simp [ainsert, keysFin]
    · simp only [keysFin, List.map_cons, List.toFinset_cons] at ih ⊢
      rw [show ainsert ((k', v') :: rest) k v = (k', v') :: ainsert rest k v by
        simp [ainsert, h0]]
      simp only [List.map_cons, List.toFinset_cons]
      rw [ih, Finset.Insert.comm]

theorem alookup_eq_none_iff (a : List (Nat × Int)) (k : Nat) :
    alookup a k = none ↔ k ∉ a.map Prod.fst := by
  induction a with
  | nil => simp [alookup]
  | cons p rest ih =>
    obtain ⟨k', v'⟩ := p
    by_cases h0 : k' = k
    · subst h0
      simp [alookup]
    · have h1 : ¬(k = k') := fun hc => h0 hc.symm
      simp [alookup, h0, h1, ih]

theorem mem_of_alookup_eq_some (a : List (Nat × Int)) (k : Nat) (v : Int)
    (h : alookup a k = some v) : (k, v) ∈ a := by
  induction a with
  | nil => simp [alookup] at h
  | cons p rest ih =>
    obtain ⟨k', v'⟩ := p
    by_cases h0 : k' = k
    · rw [show alookup ((k', v') :: rest) k = some v' by simp [alookup, h0]] at h
      obtain rfl : v' = v := Option.some.inj h
      subst h0
      exact List.mem_cons_self _ _
    · rw [show alookup ((k', v') :: rest) k = alookup rest k by simp [alookup, h0]] at h
      exact List.mem_cons_of_mem _ (ih h)

theorem alookup_eq_some_of_mem (a : List (Nat × Int)) (k : Nat) (v : Int)
    (hnd : (a.map Prod.fst).Nodup) (h : (k, v) ∈ a) : alookup a k = some v := by
  induction a with
  | nil => simp at h
  | cons p rest ih =>
    obtain ⟨k', v'⟩ := p
    simp only [List.map_cons, List.nodup_cons] at hnd
    rcases List.mem_cons.mp h with h1 | h1
    · injection h1 with e1 e2
      subst e1
      subst e2
      simp [alookup]
    · have hk : k' ≠ k := fun hc => hnd.1 (by
        rw [hc]
        exact List.mem_map.mpr ⟨(k, v), h1, rfl⟩)
      rw [show alookup ((k', v') :: rest) k = alookup rest k by simp [alookup, hk]]
      exact ih hnd.2 h1

/-! ## Characterization of `simplify` -/

theorem clauseSatisfiedBy_cons (δ : Assignment) (p : Nat × Int) (rest : Clause) :
    clauseSatisfiedBy δ (p :: rest)
      = ((alookup δ p.1 == some p.2) || clauseSatisfiedBy δ rest) := by
  simp [clauseSatisfiedBy]

theorem clauseReduce_cons (δ : Assignment) (p : Nat × Int) (rest : Clause) :
    clauseReduce δ (p :: rest)
      = if (alookup δ p.1).isNone then p :: clauseReduce δ rest else clauseReduce δ rest := by
  simp [clauseReduce, List.filter_cons]

theorem scanClause_spec (δ : Assignment) (c : Clause) :
    scanClause δ c = if clauseSatisfiedBy δ c then none else some (clauseReduce δ c) := by
  induction c with
  | nil => simp [scanClause, clauseSatisfiedBy, clauseReduce]
  | cons p rest ih =>
    obtain ⟨s, σ⟩ := p
    rw [clauseSatisfiedBy_cons, clauseReduce_cons]
    cases h : alookup δ s with
    | some v =>
      by_cases hv : v = σ
      · subst hv
        rw [show scanClause δ ((s, v) :: rest) = none by simp [scanClause, h]]
        simp [h]
      · rw [show scanClause δ ((s, σ) :: rest) = scanClause δ rest by simp [scanClause, h, hv]]
        rw [ih]
        have hb : (some v == some σ) = false := by simp [hv]
        simp [h, hb]
    | none =>
      rw [show scanClause δ ((s, σ) :: rest)
            = (scanClause δ rest).map (fun c' => (s, σ) :: c') by simp [scanClause, h]]
      rw [ih]
      cases hsat : clauseSatisfiedBy δ rest <;> simp [h, hsat]

theorem simplifyClauses_eq_none_iff (δ : Assignment) (cs : List Clause) :
    simplifyClauses δ cs = none ↔
      ∃ c ∈ cs, clauseSatisfiedBy δ c = false ∧ clauseReduce δ c = [] := by
  induction cs with
  | nil => simp [simplifyClauses]
  | cons c cs ih =>
    have hs := scanClause_spec δ c
    cases hsat : clauseSatisfiedBy δ c
    · rw [hsat] at hs
      simp only [Bool.false_eq_true, if_false] at hs
      cases hred : clauseReduce δ c with
      | nil =>
        rw [hred] at hs
        simp [simplifyClauses, hs, hsat, hred]
      | cons x xs =>
        rw [hred] at hs
        simp only [simplifyClauses, hs]
        simp [ih, hsat, hred]
    · rw [hsat] at hs
      simp only [if_true] at hs
      simp [simplifyClauses, hs, ih, hsat]

theorem simplifyClauses_eq_some (δ : Assignment) (cs cs' : List Clause)
    (h : simplifyClauses δ cs = some cs') :
    cs' = (cs.filter fun c => !clauseSatisfiedBy δ c).map (clauseReduce δ) := by
  induction cs generalizing cs' with
  | nil =>
    simp only [simplifyClauses] at h
    rw [← Option.some.inj h]
    simp
  | cons c cs ih =>
    have hs := scanClause_spec δ c
    cases hsat : clauseSatisfiedBy δ c
    · rw [hsat] at hs
      simp only [Bool.false_eq_true, if_false] at hs
      cases hred : clauseReduce δ c with
      | nil =>
        rw [hred] at hs
        rw [show simplifyClauses δ (c :: cs) = none by simp [simplifyClauses, hs]] at h
        exact absurd h (by simp)
      | cons x xs =>
        rw [hred] at hs
        rw [show simplifyClauses δ (c :: cs)
              = (simplifyClauses δ cs).map (fun l => (x :: xs) :: l) by
            simp [simplifyClauses, hs]] at h
        obtain ⟨cs₀, hcs₀, rfl⟩ := Option.map_eq_some'.mp h
        simp [List.filter_cons, hsat, hred, ih cs₀ hcs₀]
    · rw [hsat] at hs
      simp only [if_true] at hs
      rw [show simplifyClauses δ (c :: cs) = simplifyClauses δ cs by
        simp [simplifyClauses, hs]] at h
      simp [List.filter_cons, hsat, ih cs' h]

theorem mem_occF (cs : List Clause) (s : Nat) :
    s ∈ occF cs ↔ ∃ c ∈ cs, s ∈ keyList c := by
  simp [occF, List.mem_flatMap]

theorem keyList_clauseReduce (δ : Assignment) (c : Clause) (s : Nat)
    (h : s ∈ keyList (clauseReduce δ c)) : s ∈ keyList c ∧ alookup δ s = none := by
  simp only [keyList, clauseReduce, List.mem_map] at h
  obtain ⟨p, hp, rfl⟩ := h
  obtain ⟨hmem, hnone⟩ := List.mem_filter.mp hp
  constructor
  · exact List.mem_map.mpr ⟨p, hmem, rfl⟩
  · exact Option.isNone_iff_eq_none.mp hnone

theorem simplify_clauses_eq (inst : SatInstance) (δ : Assignment) (inst' : SatInstance)
    (h : inst.simplify δ = some inst') :
    inst'.clauses = (inst.clauses.filter fun c => !clauseSatisfiedBy δ c).map (clauseReduce δ)
      ∧ inst'.symbols = sortedOccList inst'.clauses := by
  unfold SatInstance.simplify at h
  obtain ⟨cs, hcs, heq⟩ := Option.map_eq_some'.mp h
  subst heq
  exact ⟨simplifyClauses_eq_some δ _ cs hcs, rfl⟩

theorem simplify_eq_none_iff (inst : SatInstance) (δ : Assignment) :
    inst.simplify δ = none ↔
      ∃ c ∈ inst.clauses, clauseSatisfiedBy δ c = false ∧ clauseReduce δ c = [] := by
  unfold SatInstance.simplify
  rw [Option.map_eq_none']
  exact simplifyClauses_eq_none_iff δ inst.clauses

theorem simplify_occF_subset (inst : SatInstance) (δ : Assignment) (inst' : SatInstance)
    (h : inst.simplify δ = some inst') : occF inst'.clauses ⊆ occF inst.clauses := by
  intro s hs
  obtain ⟨hcl, _⟩ := simplify_clauses_eq inst δ inst' h
  obtain ⟨c', hc', hk⟩ := (mem_occF _ _).mp hs
  rw [hcl] at hc'
  obtain ⟨c, hc, rfl⟩ := List.mem_map.mp hc'
  exact (mem_occF _ _).mpr ⟨c, (List.mem_filter.mp hc).1, (keyList_clauseReduce δ c s hk).1⟩

theorem simplify_occF_none (inst : SatInstance) (δ : Assignment) (inst' : SatInstance)
    (h : inst.simplify δ = some inst') (s : Nat) (hs : s ∈ occF inst'.clauses) :
    alookup δ s = none := by
  obtain ⟨hcl, _⟩ := simplify_clauses_eq inst δ inst' h
  obtain ⟨c', hc', hk⟩ := (mem_occF _ _).mp hs
  rw [hcl] at hc'
  obtain ⟨c, hc, rfl⟩ := List.mem_map.mp hc'
  exact (keyList_clauseReduce δ c s hk).2

theorem simplify_no_empty (inst : SatInstance) (δ : Assignment) (inst' : SatInstance)
    (h : inst.simplify δ = some inst') : ∀ c' ∈ inst'.clauses, c' ≠ [] := by
  intro c' hc' hcon
  obtain ⟨hcl, _⟩ := simplify_clauses_eq inst δ inst' h
  rw [hcl] at hc'
  obtain ⟨c, hc, heq⟩ := List.mem_map.mp hc'
  have hf := List.mem_filter.mp hc
  have hnone : inst.simplify δ = none := by
    rw [simplify_eq_none_iff]
    exact ⟨c, hf.1, by simpa using hf.2, heq.trans hcon⟩
  rw [hnone] at h
  exact Option.noConfusion h

theorem simplify_nodup_keys (inst : SatInstance) (δ : Assignment) (inst' : SatInstance)
    (h : inst.simplify δ = some inst') (hnd : ∀ c ∈ inst.clauses, (keyList c).Nodup) :
    ∀ c' ∈ inst'.clauses, (keyList c').Nodup := by
  intro c' hc'
  obtain ⟨hcl, _⟩ := simplify_clauses_eq inst δ inst' h
  rw [hcl] at hc'
  obtain ⟨c, hc, rfl⟩ := List.mem_map.mp hc'
  have hsub : List.Sublist (keyList (clauseReduce δ c)) (keyList c) :=
    List.Sublist.map Prod.fst (List.filter_sublist c)
  exact (hnd c (List.mem_filter.mp hc).1).sublist hsub

theorem simplify_kept_mem (inst : SatInstance) (δ : Assignment) (inst' : SatInstance)
    (h : inst.simplify δ = some inst') (c : Clause) (hc : c ∈ inst.clauses)
    (hsat : clauseSatisfiedBy δ c = false) : clauseReduce δ c ∈ inst'.clauses := by
  obtain ⟨hcl, _⟩ := simplify_clauses_eq inst δ inst' h
  rw [hcl]
  exact List.mem_map.mpr ⟨c, List.mem_filter.mpr ⟨hc, by simp [hsat]⟩, rfl⟩

theorem simplify_all_sat_of_empty (inst : SatInstance) (δ : Assignment) (inst' : SatInstance)
    (h : inst.simplify δ = some inst') (hemp : inst'.clauses = []) :
    ∀ c ∈ inst.clauses, clauseSatisfiedBy δ c = true := by
  obtain ⟨hcl, _⟩ := simplify_clauses_eq inst δ inst' h
  rw [hemp] at hcl
  intro c hc
  cases hsat : clauseSatisfiedBy δ c
  · exfalso
    have : clauseReduce δ c ∈ ([] : List Clause) := by
      rw [hcl]
      exact List.mem_map.mpr ⟨c, List.mem_filter.mpr ⟨hc, by simp [hsat]⟩, rfl⟩
    simp at this
  · rfl

theorem simplify_symbols_toFinset (inst : SatInstance) (δ : Assignment) (inst' : SatInstance)
    (h : inst.simplify δ = some inst') : inst'.symbols.toFinset = occF inst'.clauses := by
  obtain ⟨_, hsym⟩ := simplify_clauses_eq inst δ inst' h
  rw [hsym]
  unfold sortedOccList
  exact sortedListOf_toFinset _

/-! ## Size bookkeeping for `simplify` -/

theorem sumLen_map_reduce_le (δ : Assignment) (l : List Clause) :
    sumLen (l.map (clauseReduce δ)) ≤ sumLen l := by
  induction l with
  | nil => simp [sumLen]
  | cons c l ih =>
    simp only [sumLen, List.map_cons, List.sum_cons] at ih ⊢
    exact Nat.add_le_add (List.length_filter_le _ _) ih

theorem sumLen_filter_le (p : Clause → Bool) (l : List Clause) :
    sumLen (l.filter p) ≤ sumLen l := by
  induction l with
  | nil => simp [sumLen]
  | cons c l ih =>
    by_cases h : p c
    · simp only [sumLen, List.filter_cons, if_pos h, List.map_cons, List.sum_cons] at ih ⊢
      exact Nat.add_le_add_left ih _
    · simp only [sumLen, List.filter_cons, if_neg h, List.map_cons, List.sum_cons] at ih ⊢
      exact le_trans ih (Nat.le_add_left _ _)

theorem sumLen_filter_add_le (δ : Assignment) (l : List Clause) (c : Clause)
    (hc : c ∈ l) (hsat : clauseSatisfiedBy δ c = true) :
    sumLen (l.filter fun d => !clauseSatisfiedBy δ d) + c.length ≤ sumLen l := by
  induction l with
  | nil => simp at hc
  | cons d l ih =>
    rcases List.mem_cons.mp hc with h1 | h1
    · subst h1
      rw [show List.filter (fun d => !clauseSatisfiedBy δ d) (c :: l)
            = List.filter (fun d => !clauseSatisfiedBy δ d) l by
          simp [List.filter_cons, hsat]]
      have := sumLen_filter_le (fun d => !clauseSatisfiedBy δ d) l
      simp only [sumLen, List.map_cons, List.sum_cons] at this ⊢
      omega
    · have hih := ih h1
      by_cases h : clauseSatisfiedBy δ d
      · rw [show List.filter (fun d => !clauseSatisfiedBy δ d) (d :: l)
              = List.filter (fun d => !clauseSatisfiedBy δ d) l by
            simp [List.filter_cons, h]]
        simp only [sumLen, List.map_cons, List.sum_cons] at hih ⊢
        omega
      · rw [show List.filter (fun d => !clauseSatisfiedBy δ d) (d :: l)
              = d :: List.filter (fun d => !clauseSatisfiedBy δ d) l by
            simp [List.filter_cons, h]]
        simp only [sumLen, List.map_cons, List.sum_cons] at hih ⊢
        omega

theorem sumLen_simplify_le (inst : SatInstance) (δ : Assignment) (inst' : SatInstance)
    (h : inst.simplify δ = some inst') : sumLen inst'.clauses ≤ sumLen inst.clauses := by
  obtain ⟨hcl, _⟩ := simplify_clauses_eq inst δ inst' h
  rw [hcl]
  exact le_trans (sumLen_map_reduce_le _ _) (sumLen_filter_le _ _)

theorem sumLen_simplify_lt (inst : SatInstance) (δ : Assignment) (inst' : SatInstance)
    (h : inst.simplify δ = some inst') (c : Clause) (hc : c ∈ inst.clauses)
    (hsat : clauseSatisfiedBy δ c = true) (hne : c ≠ []) :
    sumLen inst'.clauses < sumLen inst.clauses := by
  obtain ⟨hcl, _⟩ := simplify_clauses_eq inst δ inst' h
  rw [hcl]
  have h1 := sumLen_map_reduce_le δ (inst.clauses.filter fun d => !clauseSatisfiedBy δ d)
  have h2 := sumLen_filter_add_le δ inst.clauses c hc hsat
  have h3 : 0 < c.length := List.length_pos.mpr hne
  omega

/-! ## `find_unit_clause` -/

theorem find_unit_clause_eq_some (inst : SatInstance) (t : Nat) (σ : Int)
    (h : inst.find_unit_clause = some (t, σ)) : [(t, σ)] ∈ inst.clauses := by
  unfold SatInstance.find_unit_clause at h
  cases hf : inst.clauses.find? (fun c => c.length == 1) with
  | none =>
    rw [hf] at h
    simp at h
  | some c =>
    rw [hf] at h
    have hlen : c.length = 1 := by simpa using List.find?_some hf
    have hmem : c ∈ inst.clauses := List.mem_of_find?_eq_some hf
    obtain ⟨p, rfl⟩ := List.length_eq_one.mp hlen
    obtain ⟨s, v⟩ := p
    simp at h
    obtain ⟨rfl, rfl⟩ := h
    exact hmem

theorem find_unit_clause_eq_none (inst : SatInstance)
    (h : inst.find_unit_clause = none) : ∀ c ∈ inst.clauses, c.length ≠ 1 := by
  intro c hc hlen
  unfold SatInstance.find_unit_clause at h
  cases hf : inst.clauses.find? (fun c => c.length == 1) with
  | none =>
    have := List.find?_eq_none.mp hf c hc
    simp [hlen] at this
  | some c₀ =>
    rw [hf] at h
    have hl : c₀.length = 1 := by simpa using List.find?_some hf
    obtain ⟨p, rfl⟩ := List.length_eq_one.mp hl
    obtain ⟨s, v⟩ := p
    simp at h

/-! ## The termination bound of `solve_dpll` -/

theorem dpllMeasure_unit_lt (inst : SatInstance) (a : Assignment) (t : Nat) (σ : Int)
    (inst1 : SatInstance) (hu : inst.find_unit_clause = some (t, σ))
    (hs : inst.simplify [(t, σ)] = some inst1) :
    dpllMeasure inst1 (ainsert a t σ) < dpllMeasure inst a := by
  have hmem : [(t, σ)] ∈ inst.clauses := find_unit_clause_eq_some inst t σ hu
  have hsat : clauseSatisfiedBy [(t, σ)] [(t, σ)] = true := by simp [clauseSatisfiedBy, alookup]
  have hSL : sumLen inst1.clauses < sumLen inst.clauses :=
    sumLen_simplify_lt inst _ inst1 hs _ hmem hsat (by simp)
  have hMU : ((occF inst1.clauses ∪ inst1.symbols.toFinset) \ keysFin (ainsert a t σ)).card
      ≤ ((occF inst.clauses ∪ inst.symbols.toFinset) \ keysFin a).card := by
    apply Finset.card_le_card
    intro x hx
    rw [Finset.mem_sdiff] at hx ⊢
    obtain ⟨hin, hout⟩ := hx
    have hin' : x ∈ occF inst1.clauses := by
      rcases Finset.mem_union.mp hin with h | h
      · exact h
      · rwa [simplify_symbols_toFinset inst _ inst1 hs] at h
    refine ⟨Finset.mem_union_left _ (simplify_occF_subset inst _ inst1 hs hin'), ?_⟩
    intro hcon
    exact hout (by rw [keysFin_ainsert]; exact Finset.mem_insert_of_mem hcon)
  unfold dpllMeasure
  omega

theorem dpllMeasure_branch_lt (inst : SatInstance) (a : Assignment) (s : Nat) (w : Int)
    (inst' : SatInstance) (hmem : s ∈ inst.symbols) (hun : alookup a s = none)
    (hs : inst.simplify [(s, w)] = some inst') :
    dpllMeasure inst' (ainsert a s w) < dpllMeasure inst a := by
  have hSL : sumLen inst'.clauses ≤ sumLen inst.clauses := sumLen_simplify_le inst _ inst' hs
  have hsub : ((occF inst'.clauses ∪ inst'.symbols.toFinset) \ keysFin (ainsert a s w))
      ⊆ ((occF inst.clauses ∪ inst.symbols.toFinset) \ keysFin a) := by
    intro x hx
    rw [Finset.mem_sdiff] at hx ⊢
    obtain ⟨hin, hout⟩ := hx
    have hin' : x ∈ occF inst'.clauses := by
      rcases Finset.mem_union.mp hin with h | h
      · exact h
      · rwa [simplify_symbols_toFinset inst _ inst' hs] at h
    refine ⟨Finset.mem_union_left _ (simplify_occF_subset inst _ inst' hs hin'), ?_⟩
    intro hcon
    exact hout (by rw [keysFin_ainsert]; exact Finset.mem_insert_of_mem hcon)
  have hwit_in : s ∈ (occF inst.clauses ∪ inst.symbols.toFinset) \ keysFin a := by
    rw [Finset.mem_sdiff]
    refine ⟨Finset.mem_union_right _ (List.mem_toFinset.mpr hmem), ?_⟩
    intro hcon
    exact (alookup_eq_none_iff a s).mp hun (List.mem_toFinset.mp hcon)
  have hwit_out :
      s ∉ (occF inst'.clauses ∪ inst'.symbols.toFinset) \ keysFin (ainsert a s w) := by
    intro hcon
    rw [Finset.mem_sdiff] at hcon
    exact hcon.2 (by rw [keysFin_ainsert]; exact Finset.mem_insert_self _ _)
  have hMU := Finset.card_lt_card ((Finset.ssubset_iff_of_subset hsub).mpr ⟨s, hwit_in, hwit_out⟩)
  unfold dpllMeasure
  omega

/-! ## Satisfaction bookkeeping -/

theorem is_satisfied_iff (inst : SatInstance) (a : Assignment) :
    inst.is_satisfied a = true ↔
      ∀ c ∈ inst.clauses, ∃ p ∈ c, alookup a p.1 = some p.2 := by
  simp [SatInstance.is_satisfied, List.all_eq_true, List.any_eq_true]

theorem dictExtends_refl (a : Assignment) : dictExtends a a := fun _ _ h => h

theorem dictExtends_trans (r b a : Assignment) (h1 : dictExtends r b) (h2 : dictExtends b a) :
    dictExtends r a := fun k v h => h1 k v (h2 k v h)

theorem dictExtends_ainsert_of_none (a : Assignment) (k : Nat) (v : Int)
    (h : alookup a k = none) : dictExtends (ainsert a k v) a := by
  intro k' v' h'
  have hk : k' ≠ k := by
    intro hc
    rw [hc, h] at h'
    exact Option.noConfusion h'
  rw [alookup_ainsert_ne a k k' v hk]
  exact h'

theorem is_satisfied_of_simplify (inst inst' : SatInstance) (u : Nat) (w : Int) (r : Assignment)
    (hs : inst.simplify [(u, w)] = some inst') (hr : alookup r u = some w)
    (hsat : inst'.is_satisfied r = true) : inst.is_satisfied r = true := by
  rw [is_satisfied_iff] at hsat ⊢
  intro c hc
  cases hcs : clauseSatisfiedBy [(u, w)] c
  · have hk := simplify_kept_mem inst _ inst' hs c hc hcs
    obtain ⟨p, hp, hlook⟩ := hsat _ hk
    exact ⟨p, (List.mem_filter.mp hp).1, hlook⟩
  · have hex : ∃ p ∈ c, alookup [(u, w)] p.1 = some p.2 := by
      simpa [clauseSatisfiedBy, List.any_eq_true] using hcs
    obtain ⟨p, hp, hl⟩ := hex
    have h1 : p.1 = u ∧ (w : Int) = p.2 := by
      by_cases hu : u = p.1
      · exact ⟨hu.symm, by simpa [alookup, hu] using hl⟩
      · simp [alookup, hu] at hl
    exact ⟨p, hp, by rw [h1.1, ← h1.2]; exact hr⟩

/-! ## Claim C8 backbone: the caller's dict after a `solve_dpll` call -/

theorem solve_dpllGo_snd_append (fuel : Nat) :
    ∀ (inst : SatInstance) (a : Assignment), ∃ e, (solve_dpllGo fuel inst a).2 = a ++ e := by
  induction fuel with
  | zero => exact fun inst a => ⟨[], by simp [solve_dpllGo]⟩
  | succ fuel ih =>
    intro inst a
    cases hfu : inst.find_unit_clause with
    | some p =>
      obtain ⟨t, σ⟩ := p
      by_cases hconf : conflictsWith a t σ
      · exact ⟨[], by simp [solve_dpllGo, hfu, hconf]⟩
      · have hins : ∃ e, ainsert a t σ = a ++ e := by
          unfold conflictsWith at hconf
          cases hl : alookup a t with
          | some v =>
            rw [hl] at hconf
            have hv : v = σ := by
              by_contra hne
              exact hconf (by simp [hne])
            subst hv
            exact ⟨[], by rw [ainsert_of_alookup_some a t v hl]; simp⟩
          | none => exact ⟨[(t, σ)], ainsert_of_alookup_none a t σ hl⟩
        obtain ⟨e, he⟩ := hins
        cases hs : inst.simplify [(t, σ)] with
        | none => exact ⟨e, by simp [solve_dpllGo, hfu, hconf, hs, he]⟩
        | some inst1 =>
          by_cases hemp : inst1.clauses = []
          · exact ⟨e, by simp [solve_dpllGo, hfu, hconf, hs, hemp, he]⟩
          · obtain ⟨e2, he2⟩ := ih inst1 (ainsert a t σ)
            refine ⟨e ++ e2, ?_⟩
            rw [show (solve_dpllGo (fuel+1) inst a).2
                  = (solve_dpllGo fuel inst1 (ainsert a t σ)).2 by
                simp [solve_dpllGo, hfu, hconf, hs, hemp]]
            rw [he2, he, List.append_assoc]
    | none =>
      by_cases hemp : inst.clauses = []
      · exact ⟨[], by simp [solve_dpllGo, hfu, hemp]⟩
      · cases hfa : inst.symbols.find? (fun s => (alookup a s).isNone) with
        | none => exact ⟨[], by simp [solve_dpllGo, hfu, hemp, hfa]⟩
        | some s =>
          refine ⟨[], ?_⟩
          cases hsT : inst.simplify [(s, 1)] with
          | none => simp [solve_dpllGo, hfu, hemp, hfa, hsT]
          | some instT =>
            simp only [solve_dpllGo, hfu, hemp, hfa, hsT, if_neg hemp]
            cases (solve_dpllGo fuel instT (ainsert a s 1)).1 with
            | crash => simp
            | fuelOut => simp
            | fail =>
              cases hsF : inst.simplify [(s, -1)] with
              | none => simp [hsF]
              | some instF => simp [hsF]
            | found r =>
              by_cases hr : r = []
              · cases hsF : inst.simplify [(s, -1)] with
                | none => simp [hr, hsF]
                | some instF => simp [hr, hsF]
              · simp [hr]

/-! ## Claim C5 backbone: `solve_dpll` never crashes on well-formed instances -/

theorem branch_simplify_ne_none (inst : SatInstance) (s : Nat) (w : Int)
    (hne : ∀ c ∈ inst.clauses, c ≠ [])
    (hnd : ∀ c ∈ inst.clauses, (keyList c).Nodup)
    (hfu : inst.find_unit_clause = none) :
    inst.simplify [(s, w)] ≠ none := by
  intro hcon
  rw [simplify_eq_none_iff] at hcon
  obtain ⟨c, hc, hsat, hred⟩ := hcon
  have hkeys : ∀ p ∈ c, p.1 = s := by
    intro p hp
    by_contra hps
    have hsp : ¬(s = p.1) := fun hc' => hps hc'.symm
    have hnone : (alookup [(s, w)] p.1).isNone = true := by simp [alookup, hsp]
    have hpmem : p ∈ clauseReduce [(s, w)] c := List.mem_filter.mpr ⟨hp, hnone⟩
    rw [hred] at hpmem
    simp at hpmem
  cases c with
  | nil => exact hne [] hc rfl
  | cons p1 rest1 =>
    cases rest1 with
    | nil => exact find_unit_clause_eq_none inst hfu [p1] hc rfl
    | cons p2 rest2 =>
      have h1 : p1.1 = s := hkeys p1 (List.mem_cons_self _ _)
      have h2 : p2.1 = s := hkeys p2 (List.mem_cons_of_mem _ (List.mem_cons_self _ _))
      have hndc := hnd _ hc
      simp [keyList, h1, h2] at hndc

theorem solve_dpllGo_ne_crash (fuel : Nat) :
    ∀ (inst : SatInstance) (a : Assignment),
      (∀ c ∈ inst.clauses, c ≠ []) →
      (∀ c ∈ inst.clauses, (keyList c).Nodup) →
      (solve_dpllGo fuel inst a).1 ≠ .crash := by
  induction fuel with
  | zero =>
    intro inst a _ _
    simp [solve_dpllGo]
  | succ fuel ih =>
    intro inst a hne hnd
    cases hfu : inst.find_unit_clause with
    | some p =>
      obtain ⟨t, σ⟩ := p
      by_cases hconf : conflictsWith a t σ
      · simp [solve_dpllGo, hfu, hconf]
      · cases hs : inst.simplify [(t, σ)] with
        | none => simp [solve_dpllGo, hfu, hconf, hs]
        | some inst1 =>
          by_cases hemp : inst1.clauses = []
          · simp [solve_dpllGo, hfu, hconf, hs, hemp]
          · rw [show (solve_dpllGo (fuel+1) inst a)
                  = solve_dpllGo fuel inst1 (ainsert a t σ) by
                simp [solve_dpllGo, hfu, hconf, hs, hemp]]
            exact ih inst1 _ (simplify_no_empty inst _ inst1 hs)
              (simplify_nodup_keys inst _ inst1 hs hnd)
    | none =>
      by_cases hemp : inst.clauses = []
      · simp [solve_dpllGo, hfu, hemp]
      · cases hfa : inst.symbols.find? (fun s => (alookup a s).isNone) with
        | none => simp [solve_dpllGo, hfu, hemp, hfa]
        | some s =>
          cases hsT : inst.simplify [(s, 1)] with
          | none => exact absurd hsT (branch_simplify_ne_none inst s 1 hne hnd hfu)
          | some instT =>
            have hT := ih instT (ainsert a s 1) (simplify_no_empty inst _ instT hsT)
              (simplify_nodup_keys inst _ instT hsT hnd)
            simp only [solve_dpllGo, hfu, hfa, hsT, if_neg hemp]
            cases hres : (solve_dpllGo fuel instT (ainsert a s 1)).1 with
            | crash => exact absurd hres hT
            | fuelOut => simp
            | fail =>
              cases hsF : inst.simplify [(s, -1)] with
              | none => exact absurd hsF (branch_simplify_ne_none inst s (-1) hne hnd hfu)
              | some instF =>
                have hF := ih instF (ainsert a s (-1)) (simplify_no_empty inst _ instF hsF)
                  (simplify_nodup_keys inst _ instF hsF hnd)
                simp [hsF]
                exact hF
            | found r =>
              by_cases hr : r = []
              · cases hsF : inst.simplify [(s, -1)] with
                | none => exact absurd hsF (branch_simplify_ne_none inst s (-1) hne hnd hfu)
                | some instF =>
                  have hF := ih instF (ainsert a s (-1)) (simplify_no_empty inst _ instF hsF)
                    (simplify_nodup_keys inst _ instF hsF hnd)
                  simp [hr, hsF]
                  exact hF
              · simp [hr]

/-! ## Claim C2 backbone: complementary unit clauses force the failure signal -/

theorem solve_dpllGo_fail_of_complementary (fuel : Nat) :
    ∀ (inst : SatInstance) (a : Assignment) (x : Nat) (w : Int),
      w ≠ 0 →
      [(x, w)] ∈ inst.clauses → [(x, -w)] ∈ inst.clauses →
      dpllMeasure inst a < fuel →
      (solve_dpllGo fuel inst a).1 = .fail := by
  induction fuel with
  | zero =>
    intro inst a x w _ _ _ hm
    omega
  | succ fuel ih =>
    intro inst a x w hw hc1 hc2 hm
    cases hfu : inst.find_unit_clause with
    | none => exact absurd rfl (find_unit_clause_eq_none inst hfu [(x, w)] hc1)
    | some p =>
      obtain ⟨t, σ⟩ := p
      by_cases hconf : conflictsWith a t σ
      · simp [solve_dpllGo, hfu, hconf]
      · cases hs : inst.simplify [(t, σ)] with
        | none => simp [solve_dpllGo, hfu, hconf, hs]
        | some inst1 =>
          have htx : t ≠ x := by
            intro hc
            subst hc
            have hnone : inst.simplify [(t, σ)] = none := by
              rw [simplify_eq_none_iff]
              by_cases hσw : σ = w
              · refine ⟨[(t, -w)], hc2, ?_, by simp [clauseReduce, alookup]⟩
                simp [clauseSatisfiedBy, alookup, hσw]
                omega
              · refine ⟨[(t, w)], hc1, ?_, by simp [clauseReduce, alookup]⟩
                simp [clauseSatisfiedBy, alookup]
                exact hσw
            rw [hnone] at hs
            exact Option.noConfusion hs
          have hkeep : ∀ (v : Int), [(x, v)] ∈ inst.clauses → [(x, v)] ∈ inst1.clauses := by
            intro v hv
            have hnsat : clauseSatisfiedBy [(t, σ)] [(x, v)] = false := by
              simp [clauseSatisfiedBy, alookup, htx]
            have hmem := simplify_kept_mem inst _ inst1 hs [(x, v)] hv hnsat
            rwa [show clauseReduce [(t, σ)] [(x, v)] = [(x, v)] by
              simp [clauseReduce, alookup, htx]] at hmem
          have h1' := hkeep w hc1
          have h2' := hkeep (-w) hc2
          have hemp : inst1.clauses ≠ [] := by
            intro hc
            rw [hc] at h1'
            simp at h1'
          rw [show (solve_dpllGo (fuel+1) inst a)
                = solve_dpllGo fuel inst1 (ainsert a t σ) by
              simp [solve_dpllGo, hfu, hconf, hs, hemp]]
          have hmlt := dpllMeasure_unit_lt inst a t σ inst1 hfu hs
          exact ih inst1 (ainsert a t σ) x w hw h1' h2' (by omega)

/-! ## Claim C4 backbone: a returned assignment satisfies the instance -/

theorem solve_dpllGo_found_sound (fuel : Nat) :
    ∀ (inst : SatInstance) (a : Assignment) (r : Assignment),
      (∀ c ∈ inst.clauses, c ≠ []) →
      (occF inst.clauses ⊆ inst.symbols.toFinset) →
      (∀ s ∈ occF inst.clauses, alookup a s = none) →
      (solve_dpllGo fuel inst a).1 = .found r →
      dictExtends r a ∧ inst.is_satisfied r = true := by
  induction fuel with
  | zero =>
    intro inst a r _ _ _ h
    simp [solve_dpllGo] at h
  | succ fuel ih =>
    intro inst a r hne hocc hdisj h
    cases hfu : inst.find_unit_clause with
    | some p =>
      obtain ⟨t, σ⟩ := p
      have htmem : [(t, σ)] ∈ inst.clauses := find_unit_clause_eq_some inst t σ hfu
      have htocc : t ∈ occF inst.clauses :=
        (mem_occF _ _).mpr ⟨[(t, σ)], htmem, by simp [keyList]⟩
      have hta : alookup a t = none := hdisj t htocc
      have hconf : conflictsWith a t σ = false := by simp [conflictsWith, hta]
      have hext : dictExtends (ainsert a t σ) a := dictExtends_ainsert_of_none a t σ hta
      have hti : alookup (ainsert a t σ) t = some σ := alookup_ainsert_self a t σ
      cases hs : inst.simplify [(t, σ)] with
      | none => simp [solve_dpllGo, hfu, hconf, hs] at h
      | some inst1 =>
        by_cases hemp : inst1.clauses = []
        · have hr : r = ainsert a t σ := by
            have h' := h
            simp [solve_dpllGo, hfu, hconf, hs, hemp] at h'
            exact h'.symm
          subst hr
          refine ⟨hext, ?_⟩
          rw [is_satisfied_iff]
          intro c hc
          have hsatc := simplify_all_sat_of_empty inst _ inst1 hs hemp c hc
          have hex : ∃ p ∈ c, alookup [(t, σ)] p.1 = some p.2 := by
            simpa [clauseSatisfiedBy, List.any_eq_true] using hsatc
          obtain ⟨p, hp, hl⟩ := hex
          have h1 : p.1 = t ∧ (σ : Int) = p.2 := by
            by_cases hu' : t = p.1
            · exact ⟨hu'.symm, by simpa [alookup, hu'] using hl⟩
            · simp [alookup, hu'] at hl
          exact ⟨p, hp, by rw [h1.1, ← h1.2]; exact hti⟩
        · have hrec : (solve_dpllGo fuel inst1 (ainsert a t σ)).1 = .found r := by
            have h' := h
            rw [show (solve_dpllGo (fuel+1) inst a)
                  = solve_dpllGo fuel inst1 (ainsert a t σ) by
                simp [solve_dpllGo, hfu, hconf, hs, hemp]] at h'
            exact h'
          have hdisj1 : ∀ s' ∈ occF inst1.clauses, alookup (ainsert a t σ) s' = none := by
            intro s' hs'
            have hδ := simplify_occF_none inst _ inst1 hs s' hs'
            have hts : t ≠ s' := by
              intro hc
              rw [show alookup [(t, σ)] s' = some σ by simp [alookup, hc]] at hδ
              exact Option.noConfusion hδ
            rw [alookup_ainsert_ne a t s' σ (fun hc => hts hc.symm)]
            exact hdisj s' (simplify_occF_subset inst _ inst1 hs hs')
          obtain ⟨hextr, hsat1⟩ := ih inst1 (ainsert a t σ) r
            (simplify_no_empty inst _ inst1 hs)
            (by rw [simplify_symbols_toFinset inst _ inst1 hs])
            hdisj1 hrec
          refine ⟨dictExtends_trans r _ a hextr hext, ?_⟩
          exact is_satisfied_of_simplify inst inst1 t σ r hs (hextr t σ hti) hsat1
    | none =>
      by_cases hemp : inst.clauses = []
      · have hr : r = a := by
          have h' := h
          simp [solve_dpllGo, hfu, hemp] at h'
          exact h'.symm
        subst hr
        refine ⟨dictExtends_refl _, ?_⟩
        rw [is_satisfied_iff]
        intro c hc
        rw [hemp] at hc
        simp at hc
      · cases hfa : inst.symbols.find? (fun s => (alookup a s).isNone) with
        | none =>
          exfalso
          obtain ⟨c, hc⟩ := List.exists_mem_of_ne_nil _ hemp
          obtain ⟨p, hp⟩ := List.exists_mem_of_ne_nil c (hne c hc)
          have hso : p.1 ∈ occF inst.clauses :=
            (mem_occF _ _).mpr ⟨c, hc, List.mem_map.mpr ⟨p, hp, rfl⟩⟩
          have hsym : p.1 ∈ inst.symbols := List.mem_toFinset.mp (hocc hso)
          have hnone : (alookup a p.1).isNone = true := by rw [hdisj p.1 hso]; rfl
          exact List.find?_eq_none.mp hfa p.1 hsym hnone
        | some s =>
          have hsa : alookup a s = none := by
            have hp := List.find?_some hfa
            simpa [Option.isNone_iff_eq_none] using hp
          have hbranch : ∀ (w : Int) (instW : SatInstance),
              inst.simplify [(s, w)] = some instW →
              (solve_dpllGo fuel instW (ainsert a s w)).1 = .found r →
              dictExtends r a ∧ inst.is_satisfied r = true := by
            intro w instW hsW hrec
            have hdisjW : ∀ s' ∈ occF instW.clauses, alookup (ainsert a s w) s' = none := by
              intro s' hs'
              have hδ := simplify_occF_none inst _ instW hsW s' hs'
              have hts : s ≠ s' := by
                intro hc
                rw [show alookup [(s, w)] s' = some w by simp [alookup, hc]] at hδ
                exact Option.noConfusion hδ
              rw [alookup_ainsert_ne a s s' w (fun hc => hts hc.symm)]
              exact hdisj s' (simplify_occF_subset inst _ instW hsW hs')
            obtain ⟨hextr, hsatW⟩ := ih instW (ainsert a s w) r
              (simplify_no_empty inst _ instW hsW)
              (by rw [simplify_symbols_toFinset inst _ instW hsW])
              hdisjW hrec
            have hexta : dictExtends (ainsert a s w) a := dictExtends_ainsert_of_none a s w hsa
            refine ⟨dictExtends_trans r _ a hextr hexta, ?_⟩
            exact is_satisfied_of_simplify inst instW s w r hsW
              (hextr s w (alookup_ainsert_self a s w)) hsatW
          cases hsT : inst.simplify [(s, 1)] with
          | none => simp [solve_dpllGo, hfu, hemp, hfa, hsT] at h
          | some instT =>
            cases hres : (solve_dpllGo fuel instT (ainsert a s 1)).1 with
            | crash => simp [solve_dpllGo, hfu, hemp, hfa, hsT, hres] at h
            | fuelOut => simp [solve_dpllGo, hfu, hemp, hfa, hsT, hres] at h
            | found r0 =>
              by_cases hr0 : r0 = []
              · cases hsF : inst.simplify [(s, -1)] with
                | none => simp [solve_dpllGo, hfu, hemp, hfa, hsT, hres, hr0, hsF] at h
                | some instF =>
                  rw [show solve_dpllGo (fuel+1) inst a
                        = ((solve_dpllGo fuel instF (ainsert a s (-1))).1, a) by
                      simp [solve_dpllGo, hfu, hemp, hfa, hsT, hres, hr0, hsF]] at h
                  exact hbranch (-1) instF hsF h
              · rw [show solve_dpllGo (fuel+1) inst a = (DpllOut.found r0, a) by
                    simp [solve_dpllGo, hfu, hemp, hfa, hsT, hres, hr0]] at h
                have hr : r0 = r := DpllOut.found.inj h
                subst hr
                exact hbranch 1 instT hsT hres
            | fail =>
              cases hsF : inst.simplify [(s, -1)] with
              | none => simp [solve_dpllGo, hfu, hemp, hfa, hsT, hres, hsF] at h
              | some instF =>
                rw [show solve_dpllGo (fuel+1) inst a
                      = ((solve_dpllGo fuel instF (ainsert a s (-1))).1, a) by
                    simp [solve_dpllGo, hfu, hemp, hfa, hsT, hres, hsF]] at h
                exact hbranch (-1) instF hsF h

/-! ## Claims C1/C3 backbone: dp need not terminate -/

theorem dpStep_taut : dpStep [({2, -2} : Finset Int)] = .inr [({2, -2} : Finset Int)] := by
  decide

theorem dpStep_spec_example :
    dpStep [({1, 2} : Finset Int), {-1, -2}] = .inr [({2, -2} : Finset Int)] := by
  decide

theorem dpFuel_taut_none : ∀ n, dpFuel n [({2, -2} : Finset Int)] = none := by
  intro n
  induction n with
  | zero => rfl
  | succ n ih =>
    rw [show dpFuel (n+1) [({2, -2} : Finset Int)] = dpFuel n [({2, -2} : Finset Int)] by
      simp [dpFuel, dpStep_taut]]
    exact ih

theorem dpFuel_example_none : ∀ n, dpFuel n [({1, 2} : Finset Int), {-1, -2}] = none := by
  intro n
  cases n with
  | zero => rfl
  | succ n =>
    rw [show dpFuel (n+1) [({1, 2} : Finset Int), {-1, -2}]
          = dpFuel n [({2, -2} : Finset Int)] by simp [dpFuel, dpStep_spec_example]]
    exact dpFuel_taut_none n

/-- The `if frozenset() in clauses: return False` base case of `dp`. -/
theorem dpFuel_false_of_empty_mem (G : List (Finset Int)) (hG : (∅ : Finset Int) ∈ G) :
    ∀ n, dpFuel (n+1) G = some false := by
  intro n
  simp [dpFuel, dpStep, hG]

/-! ## Claim C2 backbone: resolution refutes complementary unit clauses -/

theorem resolve_units (l : Int) : resolve {l} {-l} = some ∅ := by
  have hsort : sortedListOf ({l} : Finset Int) = [l] := by
    rw [sortedListOf_eq_sort]
    exact Finset.sort_singleton _ _
  unfold resolve
  rw [hsort]
  simp [List.find?, Finset.erase_singleton]

theorem scanPairs_none_of_empty_resolvent (known : List (Finset Int)) :
    ∀ (ps : List (Finset Int × Finset Int)) (acc : List (Finset Int)) (c1 c2 : Finset Int),
      (c1, c2) ∈ ps → resolve c1 c2 = some ∅ → scanPairs known ps acc = none := by
  intro ps
  induction ps with
  | nil =>
    intro acc c1 c2 h
    simp at h
  | cons p ps ih =>
    intro acc c1 c2 hmem hres
    obtain ⟨d1, d2⟩ := p
    rcases List.mem_cons.mp hmem with h1 | h1
    · injection h1 with e1 e2
      subst e1
      subst e2
      simp [scanPairs, hres]
    · cases hr : resolve d1 d2 with
      | none =>
        rw [show scanPairs known ((d1, d2) :: ps) acc = scanPairs known ps acc by
          simp [scanPairs, hr]]
        exact ih acc c1 c2 h1 hres
      | some r =>
        by_cases hre : r = ∅
        · simp [scanPairs, hr, hre]
        · by_cases hrm : r ∈ known ∨ r ∈ acc
          · rw [show scanPairs known ((d1, d2) :: ps) acc = scanPairs known ps acc by
              simp [scanPairs, hr, hre, hrm]]
            exact ih acc c1 c2 h1 hres
          · rw [show scanPairs known ((d1, d2) :: ps) acc = scanPairs known ps (acc ++ [r]) by
              simp [scanPairs, hr, hre, hrm]]
            exact ih (acc ++ [r]) c1 c2 h1 hres

theorem mem_allPairs_of_mem (l : List (Finset Int)) (a b : Finset Int)
    (ha : a ∈ l) (hb : b ∈ l) (hne : a ≠ b) :
    (a, b) ∈ allPairs l ∨ (b, a) ∈ allPairs l := by
  induction l with
  | nil => simp at ha
  | cons x xs ih =>
    rcases List.mem_cons.mp ha with h1 | h1
    · subst h1
      have hbx : b ∈ xs := by
        rcases List.mem_cons.mp hb with h2 | h2
        · exact absurd h2.symm hne
        · exact h2
      left
      simp only [allPairs, List.mem_append, List.mem_map]
      exact Or.inl ⟨b, hbx, rfl⟩
    · rcases List.mem_cons.mp hb with h2 | h2
      · subst h2
        right
        simp only [allPairs, List.mem_append, List.mem_map]
        exact Or.inl ⟨a, h1, rfl⟩
      · rcases ih h1 h2 with h | h
        · left
          simp only [allPairs, List.mem_append]
          exact Or.inr h
        · right
          simp only [allPairs, List.mem_append]
          exact Or.inr h

theorem resolutionFuel_unsat_of_units (l : Int) (hl : l ≠ 0) (known : List (Finset Int))
    (h1 : ({l} : Finset Int) ∈ known) (h2 : ({-l} : Finset Int) ∈ known) :
    ∀ n, resolutionFuel (n+1) known = some .Unsatisfiable := by
  intro n
  have hne : ({l} : Finset Int) ≠ {-l} := by
    intro hc
    have hm : l ∈ ({-l} : Finset Int) := by
      rw [← hc]
      exact Finset.mem_singleton_self l
    rw [Finset.mem_singleton] at hm
    omega
  have hscan : scanPairs known (allPairs known) [] = none := by
    rcases mem_allPairs_of_mem known _ _ h1 h2 hne with h | h
    · exact scanPairs_none_of_empty_resolvent known _ [] _ _ h (resolve_units l)
    · have hres := resolve_units (-l)
      rw [neg_neg] at hres
      exact scanPairs_none_of_empty_resolvent known _ [] _ _ h hres
  simp [resolutionFuel, hscan]

/-! ## Claim C9 backbone: out-of-range literals in the SatInstance parsers -/

theorem fromDimacsGo_error (nvars : Nat) :
    ∀ (lits : List Int) (acc : Clause),
      (∃ l ∈ lits, ¬(1 ≤ l.natAbs ∧ l.natAbs ≤ nvars)) →
      ∃ l, fromDimacsGo nvars lits acc = .error l ∧ l ∈ lits
        ∧ ¬(1 ≤ l.natAbs ∧ l.natAbs ≤ nvars) := by
  intro lits
  induction lits with
  | nil =>
    intro acc h
    simp at h
  | cons l rest ih =>
    intro acc h
    by_cases hr : 1 ≤ l.natAbs ∧ l.natAbs ≤ nvars
    · obtain ⟨l', hl', hbad⟩ := h
      rcases List.mem_cons.mp hl' with h1 | h1
      · subst h1
        exact absurd hr hbad
      · obtain ⟨l'', heq, hmem, hbad'⟩ :=
          ih (ainsert acc l.natAbs (if l > 0 then 1 else -1)) ⟨l', h1, hbad⟩
        refine ⟨l'', ?_, List.mem_cons_of_mem _ hmem, hbad'⟩
        rw [show fromDimacsGo nvars (l :: rest) acc
              = fromDimacsGo nvars rest (ainsert acc l.natAbs (if l > 0 then 1 else -1)) by
            simp [fromDimacsGo, hr]]
        exact heq
    · exact ⟨l, by simp [fromDimacsGo, hr], List.mem_cons_self _ _, hr⟩

/-! ## Claim C10 backbone: no parser ever produces an empty clause -/

theorem ainsert_length_ge (a : List (Nat × Int)) (k : Nat) (v : Int) :
    a.length ≤ (ainsert a k v).length := by
  induction a with
  | nil => simp [ainsert]
  | cons p rest ih =>
    obtain ⟨k', v'⟩ := p
    by_cases h : k' = k <;> simp [ainsert, h]
    exact ih

theorem fromDimacsGo_ok_length (nvars : Nat) :
    ∀ (lits : List Int) (acc : Clause) (c : Clause),
      fromDimacsGo nvars lits acc = .ok c → acc.length ≤ c.length := by
  intro lits
  induction lits with
  | nil =>
    intro acc c h
    simp only [fromDimacsGo] at h
    rw [← Except.ok.inj h]
  | cons l rest ih =>
    intro acc c h
    by_cases hr : 1 ≤ l.natAbs ∧ l.natAbs ≤ nvars
    · rw [show fromDimacsGo nvars (l :: rest) acc
            = fromDimacsGo nvars rest (ainsert acc l.natAbs (if l > 0 then 1 else -1)) by
          simp [fromDimacsGo, hr]] at h
      have h1 := ih _ c h
      have h2 := ainsert_length_ge acc l.natAbs (if l > 0 then 1 else -1)
      omega
    · simp [fromDimacsGo, hr] at h

theorem from_dimacs_ok_ne_nil (lits : List Int) (nvars : Nat) (c : Clause)
    (hne : lits ≠ []) (h : from_dimacs lits nvars = .ok c) : c ≠ [] := by
  cases lits with
  | nil => exact absurd rfl hne
  | cons l rest =>
    unfold from_dimacs at h
    by_cases hr : 1 ≤ l.natAbs ∧ l.natAbs ≤ nvars
    · rw [show fromDimacsGo nvars (l :: rest) []
            = fromDimacsGo nvars rest [(l.natAbs, if l > 0 then 1 else -1)] by
          simp [fromDimacsGo, hr, ainsert]] at h
      have hlen := fromDimacsGo_ok_length nvars rest _ c h
      intro hc
      rw [hc] at hlen
      simp at hlen
    · simp [fromDimacsGo, hr] at h

theorem fdfGo_ok_no_empty :
    ∀ (lines : List DLine) (nv : Nat) (cls : List Clause) (inst : SatInstance),
      (∀ c ∈ cls, c ≠ []) → fdfGo lines nv cls = .ok inst → ∀ c ∈ inst.clauses, c ≠ [] := by
  intro lines
  induction lines with
  | nil =>
    intro nv cls inst hinv h
    simp only [fdfGo] at h
    rw [← Except.ok.inj h]
    exact hinv
  | cons line rest ih =>
    intro nv cls inst hinv h
    cases line with
    | comment => exact ih nv cls inst hinv (by simpa [fdfGo] using h)
    | blank => exact ih nv cls inst hinv (by simpa [fdfGo] using h)
    | preamble v ncl => exact ih (max nv v) cls inst hinv (by simpa [fdfGo] using h)
    | badPreamble => simp [fdfGo] at h
    | clauseLine toks =>
      by_cases hl : toks.filter (· ≠ 0) = []
      · rw [show fdfGo (DLine.clauseLine toks :: rest) nv cls = fdfGo rest nv cls by
            simp only [fdfGo]
            rw [if_pos hl]] at h
        exact ih nv cls inst hinv h
      · cases hfd : from_dimacs (toks.filter (· ≠ 0)) nv with
        | error l =>
          rw [show fdfGo (DLine.clauseLine toks :: rest) nv cls
                = .error (.badLiteral l) by
              simp only [fdfGo]
              rw [if_neg hl, hfd]] at h
          exact Except.noConfusion h
        | ok c =>
          have hc : c ≠ [] := from_dimacs_ok_ne_nil _ nv c hl hfd
          refine ih nv (cls ++ [c]) inst ?_ ?_
          · intro c' hc'
            rcases List.mem_append.mp hc' with h1 | h1
            · exact hinv c' h1
            · simp at h1
              rw [h1]
              exact hc
          · rw [show fdfGo (DLine.clauseLine toks :: rest) nv cls
                  = fdfGo rest nv (cls ++ [c]) by
                simp only [fdfGo]
                rw [if_neg hl, hfd]] at h
            exact h

theorem dimacsGo_no_empty :
    ∀ (lines : List DLine) (acc : List (Finset Int)),
      (∀ c ∈ acc, c ≠ ∅) → ∀ c ∈ dimacsGo lines acc, c ≠ ∅ := by
  intro lines
  induction lines with
  | nil =>
    intro acc h
    simpa [dimacsGo] using h
  | cons line rest ih =>
    intro acc h c hc
    cases line with
    | comment => exact ih acc h c (by simpa [dimacsGo] using hc)
    | blank => exact ih acc h c (by simpa [dimacsGo] using hc)
    | preamble v n => exact ih acc h c (by simpa [dimacsGo] using hc)
    | badPreamble => exact ih acc h c (by simpa [dimacsGo] using hc)
    | clauseLine toks =>
      by_cases hl : toks.filter (· ≠ 0) = []
      · rw [show dimacsGo (DLine.clauseLine toks :: rest) acc = dimacsGo rest acc by
            simp only [dimacsGo]
            rw [if_pos hl]] at hc
        exact ih acc h c hc
      · rw [show dimacsGo (DLine.clauseLine toks :: rest) acc
              = dimacsGo rest (acc ++ [(toks.filter (· ≠ 0)).toFinset]) by
            simp only [dimacsGo]
            rw [if_neg hl]] at hc
        refine ih (acc ++ [(toks.filter (· ≠ 0)).toFinset]) ?_ c hc
        intro c' hc'
        rcases List.mem_append.mp hc' with h1 | h1
        · exact h c' h1
        · rw [List.mem_singleton] at h1
          rw [h1, Ne, List.toFinset_eq_empty_iff]
          exact hl

/-! ## Claim C6 backbone: clause format / parse round trip -/

theorem fromDimacsGo_ok_of_inrange (nvars : Nat) :
    ∀ (lits : List Int) (acc : Clause),
      (∀ l ∈ lits, 1 ≤ l.natAbs ∧ l.natAbs ≤ nvars) →
      (∀ l ∈ lits, l.natAbs ∉ acc.map Prod.fst) →
      ((lits.map Int.natAbs).Nodup) →
      fromDimacsGo nvars lits acc
        = .ok (acc ++ lits.map fun l => (l.natAbs, if l > 0 then 1 else -1)) := by
  intro lits
  induction lits with
  | nil =>
    intro acc _ _ _
    simp [fromDimacsGo]
  | cons l rest ih =>
    intro acc hr hfresh hnd
    have hr0 := hr l (List.mem_cons_self _ _)
    rw [show fromDimacsGo nvars (l :: rest) acc
          = fromDimacsGo nvars rest (ainsert acc l.natAbs (if l > 0 then 1 else -1)) by
        simp [fromDimacsGo, hr0]]
    rw [ainsert_of_alookup_none acc l.natAbs _
      ((alookup_eq_none_iff _ _).mpr (hfresh l (List.mem_cons_self _ _)))]
    simp only [List.map_cons, List.nodup_cons] at hnd
    rw [ih (acc ++ [(l.natAbs, if l > 0 then 1 else -1)])
      (fun x hx => hr x (List.mem_cons_of_mem _ hx)) ?_ hnd.2]
    · simp
    · intro x hx
      simp only [List.map_append, List.mem_append, List.map_cons, List.map_nil,
        List.mem_singleton]
      rintro (hacc | hhd)
      · exact hfresh x (List.mem_cons_of_mem _ hx) hacc
      · exact hnd.1 (hhd ▸ List.mem_map.mpr ⟨x, hx, rfl⟩)

theorem alookup_eq_of_perm (a b : List (Nat × Int)) (hperm : a.Perm b)
    (hnd : (a.map Prod.fst).Nodup) (k : Nat) : alookup a k = alookup b k := by
  have hndb : (b.map Prod.fst).Nodup := ((hperm.map Prod.fst).nodup_iff).mp hnd
  cases ha : alookup a k with
  | some v =>
    rw [alookup_eq_some_of_mem b k v hndb (hperm.mem_iff.mp (mem_of_alookup_eq_some a k v ha))]
  | none =>
    cases hb : alookup b k with
    | none => rfl
    | some v =>
      have hmem := hperm.mem_iff.mpr (mem_of_alookup_eq_some b k v hb)
      have hc := alookup_eq_some_of_mem a k v hnd hmem
      rw [ha] at hc
      exact Option.noConfusion hc

/-! ## Claim theorems -/

/-- Claim C1 (refuted; code bug): the three solvers are claimed to agree on
every well-formed input formula, but on the input `p cnf 2 2 / 1 2 0 /
-1 -2 0` (the spec's own example scenario 1) the parser yields the
instance below, whose flat clause list is `[{1,2},{-1,-2}]`; `resolution`
answers Satisfiable and `solve_dpll` returns a satisfying assignment, yet
`dp` never returns at any recursion depth (the tautological resolvent
`{2,-2}` resolves with itself and reproduces the same clause list, so the
recursion never terminates — Python dies with RecursionError). -/
theorem C1_cross_solver_agreement_fails :
    from_dimacs_file [.preamble 2 2, .clauseLine [1, 2, 0], .clauseLine [-1, -2, 0]]
        = .ok ⟨[1, 2], [[(1, 1), (2, 1)], [(1, -1), (2, -1)]]⟩
    ∧ convert_to_clause_list ⟨[1, 2], [[(1, 1), (2, 1)], [(1, -1), (2, -1)]]⟩
        = [({1, 2} : Finset Int), {-1, -2}]
    ∧ (∀ n, dpFuel n [({1, 2} : Finset Int), {-1, -2}] = none)
    ∧ resolution 2 [({1, 2} : Finset Int), {-1, -2}] = some .Satisfiable
    ∧ (solve_dpll ⟨[1, 2], [[(1, 1), (2, 1)], [(1, -1), (2, -1)]]⟩ []).1
        = .found [(1, 1), (2, -1)] :=
  ⟨by decide, by decide, dpFuel_example_none, by decide, by decide⟩

/-- Claim C3 (refuted; code bug): the claim says each `dp` step eliminates
the chosen variable entirely so the variable set strictly shrinks and the
recursion terminates.  On the clause list `[{2,-2}]` (reached by `dp`
itself from the spec's example `1 2 0 / -1 -2 0` after one elimination
step) the recursive call receives the very same clause list — same
variable set — and `dp` never returns at any recursion depth. -/
theorem C3_dp_not_terminating :
    dpStep [({2, -2} : Finset Int)] = .inr [({2, -2} : Finset Int)]
    ∧ (∀ n, dpFuel n [({2, -2} : Finset Int)] = none)
    ∧ dpStep [({1, 2} : Finset Int), {-1, -2}] = .inr [({2, -2} : Finset Int)] :=
  ⟨dpStep_taut, dpFuel_taut_none, dpStep_spec_example⟩

/-- Claim C2 counterexample: a clause set containing the empty clause
directly is declared Satisfiable by `resolution` — `resolve` can never pick
a literal out of the empty clause, so the empty clause never resolves with
anything and the first pass derives nothing new.  This contradicts the
claim that all three solvers return Unsatisfiable on such a formula. -/
theorem C2_counterexample :
    resolution 1 [(∅ : Finset Int)] = some .Satisfiable := by decide

/-- Claim C2 as amended: `dp` returns UNSAT whenever the empty clause is
present directly; `resolution` and `solve_dpll` return the Unsatisfiable
verdict whenever two complementary unit clauses are present (the empty
clause derivable in one resolution step).  The original claim's "directly"
case fails for `resolution` (see the counterexample) and `solve_dpll`, and
its "one-step-derivable" case can fail to terminate for `dp` (see C1/C3). -/
theorem C2_amended_unsat
    (G : List (Finset Int)) (hG : (∅ : Finset Int) ∈ G)
    (F : List (Finset Int)) (l : Int) (hl : l ≠ 0)
    (hF1 : ({l} : Finset Int) ∈ F) (hF2 : ({-l} : Finset Int) ∈ F)
    (inst : SatInstance) (a : Assignment) (x : Nat) (w : Int) (hw : w ≠ 0)
    (hc1 : [(x, w)] ∈ inst.clauses) (hc2 : [(x, -w)] ∈ inst.clauses) :
    (∀ n, dpFuel (n+1) G = some false)
    ∧ (∀ n, resolution (n+1) F = some .Unsatisfiable)
    ∧ (solve_dpll inst a).1 = .fail := by
  refine ⟨dpFuel_false_of_empty_mem G hG, ?_, ?_⟩
  · intro n
    unfold resolution
    exact resolutionFuel_unsat_of_units l hl F.dedup
      (List.mem_dedup.mpr hF1) (List.mem_dedup.mpr hF2) n
  · exact solve_dpllGo_fail_of_complementary _ inst a x w hw hc1 hc2 (Nat.lt_succ_self _)

/-- Witness for the amended claim C2 at concrete inputs. -/
theorem C2_amended_unsat_witness :
    dpFuel 1 [(∅ : Finset Int)] = some false
    ∧ resolution 1 [({1} : Finset Int), {-1}] = some .Unsatisfiable
    ∧ (solve_dpll ⟨[1], [[(1, 1)], [(1, -1)]]⟩ []).1 = .fail := by
  have h := C2_amended_unsat [(∅ : Finset Int)] (by decide)
    [({1} : Finset Int), {-1}] 1 (by decide) (by decide) (by decide)
    ⟨[1], [[(1, 1)], [(1, -1)]]⟩ [] 1 1 (by decide) (by decide) (by decide)
  exact ⟨h.1 0, h.2.1 0, h.2.2⟩

/-- Claim C4 counterexample: on the formula consisting of a single empty
clause (a valid Formula of the data model, "trivially unsatisfiable"),
`solve_dpll` returns the empty assignment — an assignment, not the failure
signal — yet `is_satisfied` rejects it, contradicting the claim as stated
for "every formula". -/
theorem C4_counterexample :
    (solve_dpll ⟨[], [[]]⟩ []).1 = .found []
    ∧ SatInstance.is_satisfied ⟨[], [[]]⟩ [] = false := by decide

/-- Claim C4 as amended: for every formula all of whose clauses are
nonempty and whose symbol list covers every occurring symbol (both
guaranteed for parser-produced formulas), whenever `solve_dpll` started
with the empty assignment returns an assignment, `is_satisfied` of the
original, unsimplified formula at that assignment is true. -/
theorem C4_amended_sound (inst : SatInstance) (r : Assignment)
    (hne : ∀ c ∈ inst.clauses, c ≠ [])
    (hocc : occF inst.clauses ⊆ inst.symbols.toFinset)
    (h : (solve_dpll inst []).1 = .found r) :
    inst.is_satisfied r = true :=
  (solve_dpllGo_found_sound (dpllMeasure inst [] + 1) inst [] r hne hocc
    (fun _ _ => rfl) h).2

/-- Witness for the amended claim C4 at a concrete input. -/
theorem C4_amended_sound_witness :
    SatInstance.is_satisfied ⟨[1], [[(1, 1)]]⟩ [(1, 1)] = true :=
  C4_amended_sound ⟨[1], [[(1, 1)]]⟩ [(1, 1)] (by decide) (by decide) (by decide)

/-- Claim C5 (confirmed): on a well-formed formula (no clause empty, and
each clause a genuine dict: no duplicate symbols within a clause),
`solve_dpll` never raises: in particular the branching step never recurses
on the contradiction signal `None` returned by `simplify`, which is the
one uncaught exception the code could produce (modelled by `.crash`). -/
theorem C5_no_crash (inst : SatInstance) (a : Assignment)
    (hne : ∀ c ∈ inst.clauses, c ≠ [])
    (hnd : ∀ c ∈ inst.clauses, (keyList c).Nodup) :
    (solve_dpll inst a).1 ≠ .crash :=
  solve_dpllGo_ne_crash (dpllMeasure inst a + 1) inst a hne hnd

/-- Witness for claim C5 at a concrete input. -/
theorem C5_no_crash_witness :
    (solve_dpll ⟨[1, 2], [[(1, 1), (2, 1)], [(1, -1), (2, -1)]]⟩ []).1 ≠ .crash :=
  C5_no_crash ⟨[1, 2], [[(1, 1), (2, 1)], [(1, -1), (2, -1)]]⟩ [] (by decide) (by decide)

/-- Claim C6 (confirmed): for every clause the parser can produce (distinct
symbols, indices within the declared range, signs ±1), formatting it back
to literal tokens (`Clause.format` / `Clause.__str__`, read back as signed
DIMACS literals) and re-parsing the tokens with `Clause.from_dimacs` under
the same variable map succeeds and yields a clause with the same
symbol → sign mapping, for ANY ordering of the tokens. -/
theorem C6_roundtrip (c : Clause) (nv : Nat) (toks : List Int)
    (hnd : (c.map Prod.fst).Nodup)
    (hrange : ∀ p ∈ c, 1 ≤ p.1 ∧ p.1 ≤ nv ∧ (p.2 = 1 ∨ p.2 = -1))
    (hperm : toks.Perm (Clause.format c)) :
    ∃ c', from_dimacs toks nv = .ok c' ∧ ∀ s, alookup c' s = alookup c s := by
  have hdec : (Clause.format c).map
      (fun l => (l.natAbs, if l > 0 then (1 : Int) else -1)) = c := by
    unfold Clause.format
    rw [List.map_map]
    have hpt : ∀ p ∈ c, ((fun l : Int => (l.natAbs, if l > 0 then (1 : Int) else -1)) ∘
        fun p : Nat × Int => if p.2 = -1 then -(p.1 : Int) else (p.1 : Int)) p = p := by
      intro p hp
      obtain ⟨h1, _, h3⟩ := hrange p hp
      obtain ⟨s, v⟩ := p
      simp only at h1
      have hpos : (0 : Int) < (s : Int) := by exact_mod_cast Nat.lt_of_lt_of_le Nat.zero_lt_one h1
      rcases h3 with h3 | h3 <;> simp only at h3 <;> subst h3
      · have h11 : ¬((1 : Int) = -1) := by decide
        simp [Function.comp, h11, hpos, Int.natAbs_ofNat]
      · have hneg : ¬((-(s : Int)) > 0) := by omega
        simp [Function.comp, hneg, Int.natAbs_neg, Int.natAbs_ofNat]
    rw [List.map_congr_left hpt]
    simp
  have hperm2 : (toks.map fun l => (l.natAbs, if l > 0 then (1 : Int) else -1)).Perm c := by
    have h := hperm.map (fun l => (l.natAbs, if l > 0 then (1 : Int) else -1))
    rwa [hdec] at h
  have hkeys : (toks.map fun l => (l.natAbs, if l > 0 then (1 : Int) else -1)).map Prod.fst
      = toks.map Int.natAbs := by
    rw [List.map_map]
    rfl
  have hndtoks : (toks.map Int.natAbs).Nodup := by
    rw [← hkeys]
    exact ((hperm2.map Prod.fst).nodup_iff).mpr hnd
  have hrtoks : ∀ l ∈ toks, 1 ≤ l.natAbs ∧ l.natAbs ≤ nv := by
    intro l hl
    have hm : (l.natAbs, if l > 0 then (1 : Int) else -1) ∈ c :=
      hperm2.mem_iff.mp (List.mem_map.mpr ⟨l, hl, rfl⟩)
    obtain ⟨ha, hb, _⟩ := hrange _ hm
    exact ⟨ha, hb⟩
  refine ⟨toks.map fun l => (l.natAbs, if l > 0 then (1 : Int) else -1), ?_, ?_⟩
  · unfold from_dimacs
    rw [fromDimacsGo_ok_of_inrange nv toks [] hrtoks (by simp) hndtoks]
    simp
  · intro s
    refine alookup_eq_of_perm _ c hperm2 ?_ s
    rw [hkeys]
    exact hndtoks

/-- Witness for claim C6 at a concrete input: the clause `{x1: 1, x2: -1}`
formats to tokens `[1, -2]`; re-parsing the permuted tokens `[-2, 1]`
recovers the same mapping. -/
theorem C6_roundtrip_witness :
    ∃ c', from_dimacs [-2, 1] 2 = .ok c'
      ∧ ∀ s, alookup c' s = alookup [(1, 1), (2, -1)] s :=
  C6_roundtrip [(1, 1), (2, -1)] 2 [-2, 1] (by decide) (by decide) (by decide)

/-- Claim C7 (confirmed): `simplify` signals a contradiction (`None`)
exactly when some clause not satisfied by the assignment reduces to zero
symbols; otherwise it returns the instance whose clauses are exactly the
unsatisfied clauses with every assigned symbol removed (drops exactly the
clauses containing a matching literal, removes exactly the assigned
symbols from the rest). -/
theorem C7_simplify_spec (inst : SatInstance) (δ : Assignment) :
    (inst.simplify δ = none ↔
      ∃ c ∈ inst.clauses, clauseSatisfiedBy δ c = false ∧ clauseReduce δ c = [])
    ∧ (∀ inst', inst.simplify δ = some inst' →
        inst'.clauses
          = (inst.clauses.filter fun c => !clauseSatisfiedBy δ c).map (clauseReduce δ)) := by
  refine ⟨simplify_eq_none_iff inst δ, ?_⟩
  intro inst' h
  exact (simplify_clauses_eq inst δ inst' h).1

/-- Witness for claim C7 at a concrete input. -/
theorem C7_simplify_spec_witness :
    SatInstance.clauses ⟨[2], [[(2, 1)]]⟩
      = ((SatInstance.clauses ⟨[1, 2], [[(1, 1)], [(1, -1), (2, 1)]]⟩).filter
          fun c => !clauseSatisfiedBy [(1, 1)] c).map (clauseReduce [(1, 1)]) :=
  (C7_simplify_spec ⟨[1, 2], [[(1, 1)], [(1, -1), (2, 1)]]⟩ [(1, 1)]).2
    ⟨[2], [[(2, 1)]]⟩ (by decide)

/-- Claim C8 counterexample: `solve_dpll` does NOT leave the caller's
assignment dict unchanged — unit propagation assigns into it in place
(`assignment[symbol] = sign`).  Called on a unit-clause instance with the
empty dict, the caller's dict ends as `{x1: 1}` ≠ `{}`. -/
theorem C8_counterexample :
    (solve_dpll ⟨[1], [[(1, 1)]]⟩ []).2 = [(1, 1)]
    ∧ [(1, 1)] ≠ ([] : Assignment) := by decide

/-- Claim C8 as amended: the formula value is never mutated (every
simplification builds a fresh instance) and the branch recursions receive
fresh copies of the assignment, but the dict the caller passed in may be
extended in place by unit propagation: after any call, the caller's dict is
its old value with zero or more entries appended. -/
theorem C8_amended_append (inst : SatInstance) (a : Assignment) :
    ∃ e, (solve_dpll inst a).2 = a ++ e :=
  solve_dpllGo_snd_append (dpllMeasure inst a + 1) inst a

/-- Claim C9 counterexample: the resolution.py parser performs no range
check whatsoever — on a preamble declaring one variable and the clause
line `2 0` it happily returns the clause `{2}` (its result type has no
error case at all), while the SatInstance parser raises the ValueError
carrying the offending literal.  This refutes "this holds for each parser
in the system". -/
theorem C9_counterexample :
    dimacs [.preamble 1 1, .clauseLine [2, 0]] = [({2} : Finset Int)]
    ∧ from_dimacs_file [.preamble 1 1, .clauseLine [2, 0]] = .error (.badLiteral 2) := by
  decide

/-- Claim C9 as amended: the two SatInstance parsers (`Clause.from_dimacs`
of dpll.py and the identical `Clause.dimacs` of dp.py) fail on a clause
whose literal's variable index lies outside the declared range `1..nvars`,
with a ValueError carrying the offending literal; the resolution.py parser
performs no such check (see the counterexample). -/
theorem C9_amended_range_error (lits : List Int) (nv : Nat)
    (h : ∃ l ∈ lits, ¬(1 ≤ l.natAbs ∧ l.natAbs ≤ nv)) :
    ∃ l, from_dimacs lits nv = .error l ∧ l ∈ lits ∧ ¬(1 ≤ l.natAbs ∧ l.natAbs ≤ nv) :=
  fromDimacsGo_error nv lits [] h

/-- Witness for the amended claim C9 at a concrete input. -/
theorem C9_amended_range_error_witness :
    ∃ l, from_dimacs [1, -3] 2 = .error l ∧ l ∈ [(1 : Int), -3]
      ∧ ¬(1 ≤ l.natAbs ∧ l.natAbs ≤ 2) :=
  C9_amended_range_error [1, -3] 2 ⟨-3, by decide, by decide⟩

/-- Claim C10 (confirmed): every parser drops a clause line with no nonzero
literals instead of producing an empty clause, so a parsed formula never
contains the empty clause — for the SatInstance parsers of dpll.py/dp.py
and for the flat parser of resolution.py alike. -/
theorem C10_no_empty_clause (lines : List DLine) :
    (∀ inst, from_dimacs_file lines = .ok inst → ∀ c ∈ inst.clauses, c ≠ [])
    ∧ (∀ c ∈ dimacs lines, c ≠ ∅) := by
  constructor
  · intro inst h
    exact fdfGo_ok_no_empty lines 0 [] inst (by simp) h
  · exact dimacsGo_no_empty lines [] (by simp)

/-- Witness for claim C10 at a concrete input. -/
theorem C10_no_empty_clause_witness :
    [(1, 1), (2, -1)] ≠ ([] : Clause) ∧ ({1, -2} : Finset Int) ≠ ∅ := by
  constructor
  · exact (C10_no_empty_clause [.preamble 2 1, .clauseLine [1, -2, 0]]).1
      ⟨[1, 2], [[(1, 1), (2, -1)]]⟩ (by decide) [(1, 1), (2, -1)] (by decide)
  · exact (C10_no_empty_clause [.preamble 2 1, .clauseLine [1, -2, 0]]).2 {1, -2} (by decide)

